import Mathlib

/-!
# Verification of the `react-wooden-tree` tree data model

A shallow embedding of the tree-data-model core of the repository
(`src/demo-app/src/components/Tree.tsx`) together with theorems settling the
frozen claims about it.

Modelling conventions:
* JavaScript strings are modelled as lists of character codes (`JsStr`),
  so `'.'` is code 46 and the digits `'0'..'9'` are codes 48..57.
* JavaScript `undefined` / optional fields are modelled with `Option`;
  a field that can also hold `null` (such as `state.checked`, which is
  `true | false | null`) is modelled as `Option (Option Bool)` where the
  outer layer is presence and the inner `none` is `null`.
* Code paths that would raise a `TypeError` at runtime (reading a property
  of `undefined`) are modelled as `none` results of `Option`-valued
  functions.
* Unbounded recursion over the (nested) tree structure is modelled with an
  explicit fuel argument so that every definition is structural and hence
  evaluable by `decide`/`rfl`; theorems hold for every sufficiently large
  fuel.
-/

namespace WoodenTree

/-- JavaScript strings as lists of character codes. -/
abbrev JsStr := List Nat

/-- Character code of `'.'`. -/
def dotCode : Nat := 46

/-- JS `'0' <= c && c <= '9'` digit test on a character code. -/
def isDigitCode (c : Nat) : Bool := 48 ≤ c && c ≤ 57

/-- Decimal rendering of a natural number (JS `Number.prototype.toString`),
with explicit fuel; `natToChars` supplies sufficient fuel. -/
def natToCharsAux : Nat → Nat → List Nat
  | 0, _ => []
  | fuel + 1, n => if n < 10 then [48 + n] else natToCharsAux fuel (n / 10) ++ [48 + n % 10]

/-- Decimal rendering of a natural number as a JS string. -/
def natToChars (n : Nat) : JsStr := natToCharsAux (n + 1) n

/-- Numeric value of a list of decimal digit codes. -/
def digitsVal (cs : List Nat) : Nat := cs.foldl (fun acc c => acc * 10 + (c - 48)) 0

/-- The whitespace `parseInt` skips before the number (the
`StrWhiteSpaceChar` production: tab, LF, VT, FF, CR, space and NBSP; the
remaining Unicode space code points are treated alike and omitted
here). -/
def isWsCode (c : Nat) : Bool :=
  c = 9 || c = 10 || c = 11 || c = 12 || c = 13 || c = 32 || c = 160

/-- The digit phase of `parseInt(s, 10)`: the longest leading run of
decimal digits, `NaN` (`none`) if there is none; trailing garbage is
ignored. -/
def parseDigitsPrefix (cs : JsStr) : Option Nat :=
  let ds := cs.takeWhile isDigitCode
  if ds.isEmpty then none else some (digitsVal ds)

/-- JS `parseInt(s, 10)`: skip leading whitespace, consume an optional
single sign (`'-'` = 45 or `'+'` = 43), then parse the longest leading
run of decimal digits; `NaN` (`none`) when no digit follows.  The result
is an integer (e.g. `parseInt('-1', 10) = -1`). -/
def parseIntDec (cs : JsStr) : Option Int :=
  let cs1 := cs.dropWhile isWsCode
  if cs1.head? = some 45 then (parseDigitsPrefix cs1.tail).map fun v => -(v : Int)
  else if cs1.head? = some 43 then (parseDigitsPrefix cs1.tail).map fun v => (v : Int)
  else (parseDigitsPrefix cs1).map fun v => (v : Int)

/-- JS `String.prototype.split('.')`: splitting an empty string yields
`[""]`, in general one piece more than the number of dots. -/
def splitOnDot : JsStr → List JsStr
  | [] => [[]]
  | c :: cs =>
    if c = dotCode then [] :: splitOnDot cs
    else
      match splitOnDot cs with
      | r :: rs => (c :: r) :: rs
      | [] => [[c]]

/-- JS `Array.prototype.join('.')`. -/
def intercalateDot : List JsStr → JsStr
  | [] => []
  | [p] => p
  | p :: ps => p ++ dotCode :: intercalateDot ps

/-- Dot-join of an index path, i.e. the nodeId string of a position
(the spec's `join`). -/
def joinPath (l : List Nat) : JsStr := intercalateDot (l.map natToChars)

/-- `Tree.nodeIdSplit` (Tree.tsx:143-147):
`nodeId.split('.').map(id => parseInt(id, 10))`.  A segment without a
leading digit (after whitespace/sign handling) yields `NaN`, modelled as
`none`; the function itself never throws. -/
def nodeIdSplit (nodeId : JsStr) : List (Option Int) :=
  (splitOnDot nodeId).map parseIntDec

/-- Collapses a split result in which every segment parsed to a
non-negative number, i.e. to a usable tree position; `none` when some
segment is `NaN` or negative (array access with such an index reads a
plain property and yields `undefined` — those crash paths are not valid
positions). -/
def seqPath : List (Option Int) → Option (List Nat)
  | [] => some []
  | none :: _ => none
  | some i :: rest => if 0 ≤ i then (seqPath rest).map (i.toNat :: ·) else none

/-! ## Round-trip facts about the string layer -/

theorem natToCharsAux_irrel (n : Nat) : ∀ f1 f2, n < f1 → n < f2 →
    natToCharsAux f1 n = natToCharsAux f2 n := by
  induction n using Nat.strong_induction_on with
  | _ n ih =>
    intro f1 f2 h1 h2
    cases f1 with
    | zero => omega
    | succ f =>
      cases f2 with
      | zero => omega
      | succ g =>
        simp only [natToCharsAux]
        by_cases hn : n < 10
        · simp [hn]
        · simp only [hn, if_false]
          have hd : n / 10 < n := Nat.div_lt_self (by omega) (by omega)
          rw [ih (n / 10) hd f g (by omega) (by omega)]

theorem mem_natToCharsAux_digit : ∀ f n c, c ∈ natToCharsAux f n → isDigitCode c = true := by
  intro f
  induction f with
  | zero => intro n c h; simp [natToCharsAux] at h
  | succ f ih =>
    intro n c h
    simp only [natToCharsAux] at h
    by_cases hn : n < 10
    · simp [hn] at h
      subst h
      simp [isDigitCode]; omega
    · simp [hn] at h
      rcases h with h | h
      · exact ih _ _ h
      · subst h
        have : n % 10 < 10 := Nat.mod_lt _ (by omega)
        simp [isDigitCode]; omega

theorem mem_natToChars_digit (n c : Nat) (h : c ∈ natToChars n) : isDigitCode c = true :=
  mem_natToCharsAux_digit _ _ _ h

theorem dot_not_mem_natToChars (n : Nat) : dotCode ∉ natToChars n := by
  intro h
  have := mem_natToChars_digit n dotCode h
  simp [isDigitCode, dotCode] at this

theorem natToCharsAux_ne_nil : ∀ f n, n < f → natToCharsAux f n ≠ [] := by
  intro f n h
  cases f with
  | zero => omega
  | succ f =>
    simp only [natToCharsAux]
    by_cases hn : n < 10 <;> simp [hn]

theorem natToChars_ne_nil (n : Nat) : natToChars n ≠ [] :=
  natToCharsAux_ne_nil _ _ (Nat.lt_succ_self n)

theorem digitsVal_append (xs ys : List Nat) :
    digitsVal (xs ++ ys) = ys.foldl (fun acc c => acc * 10 + (c - 48)) (digitsVal xs) := by
  simp [digitsVal, List.foldl_append]

theorem digitsVal_natToCharsAux : ∀ f n, n < f → digitsVal (natToCharsAux f n) = n := by
  intro f
  induction f with
  | zero => intro n h; omega
  | succ f ih =>
    intro n h
    simp only [natToCharsAux]
    by_cases hn : n < 10
    · simp [hn, digitsVal]
    · simp only [hn, if_false]
      rw [digitsVal_append]
      have hd : n / 10 < f := by
        have := Nat.div_lt_self (n := n) (by omega) (show 1 < 10 by omega)
        omega
      simp [List.foldl, ih (n / 10) hd]
      have h10 : n % 10 < 10 := Nat.mod_lt _ (by omega)
      omega

theorem digitsVal_natToChars (n : Nat) : digitsVal (natToChars n) = n :=
  digitsVal_natToCharsAux _ _ (Nat.lt_succ_self n)

theorem takeWhile_of_all {p : Nat → Bool} : ∀ l : List Nat, (∀ c ∈ l, p c = true) →
    l.takeWhile p = l := by
  intro l h
  induction l with
  | nil => rfl
  | cons c cs ih =>
    simp only [List.takeWhile]
    rw [h c (by simp)]
    simp [ih fun x hx => h x (by simp [hx])]

theorem parseDigitsPrefix_natToChars (n : Nat) : parseDigitsPrefix (natToChars n) = some n := by
  simp only [parseDigitsPrefix]
  rw [takeWhile_of_all _ (fun c hc => mem_natToChars_digit n c hc)]
  simp [natToChars_ne_nil n, List.isEmpty_iff, digitsVal_natToChars]

theorem dropWhile_ws_digits : ∀ l : JsStr, (∀ c ∈ l, isDigitCode c = true) →
    l.dropWhile isWsCode = l := by
  intro l h
  cases l with
  | nil => rfl
  | cons c cs =>
    have hc : isDigitCode c = true := h c (by simp)
    have hrange : 48 ≤ c ∧ c ≤ 57 := by
      simpa [isDigitCode, Bool.and_eq_true, decide_eq_true_eq] using hc
    have hws : isWsCode c = false := by
      simp only [isWsCode]
      simp only [Bool.or_eq_false_iff, decide_eq_false_iff_not]
      omega
    rw [List.dropWhile_cons, hws]
    simp

theorem parseIntDec_natToChars (n : Nat) : parseIntDec (natToChars n) = some (n : Int) := by
  have hdrop : (natToChars n).dropWhile isWsCode = natToChars n :=
    dropWhile_ws_digits _ (fun c hc => mem_natToChars_digit n c hc)
  have hhead : ∀ c, (natToChars n).head? = some c → 48 ≤ c ∧ c ≤ 57 := by
    intro c hc
    have hmem : c ∈ natToChars n := by
      cases hl : natToChars n with
      | nil => rw [hl] at hc; cases hc
      | cons a r =>
        rw [hl] at hc
        simp only [List.head?] at hc
        rcases Option.some_inj.mp hc with rfl
        simp
    simpa [isDigitCode, Bool.and_eq_true, decide_eq_true_eq] using
      mem_natToChars_digit n c hmem
  have h45 : ¬ (natToChars n).head? = some 45 := by
    intro hc
    have := hhead 45 hc
    omega
  have h43 : ¬ (natToChars n).head? = some 43 := by
    intro hc
    have := hhead 43 hc
    omega
  simp only [parseIntDec, hdrop, h45, if_false, h43, parseDigitsPrefix_natToChars]
  rfl

theorem splitOnDot_no_dot : ∀ p : JsStr, dotCode ∉ p → splitOnDot p = [p] := by
  intro p h
  induction p with
  | nil => rfl
  | cons c cs ih =>
    simp only [splitOnDot]
    have hc : ¬ c = dotCode := fun hh => h (by simp [hh])
    simp only [hc, if_false]
    rw [ih (fun hh => h (by simp [hh]))]

theorem splitOnDot_append : ∀ p rest : JsStr, dotCode ∉ p →
    splitOnDot (p ++ dotCode :: rest) = p :: splitOnDot rest := by
  intro p rest h
  induction p with
  | nil => simp [splitOnDot]
  | cons c cs ih =>
    simp only [List.cons_append, splitOnDot, List.append_eq]
    have hc : ¬ c = dotCode := fun hh => h (by simp [hh])
    simp only [hc, if_false]
    rw [ih (fun hh => h (by simp [hh]))]

theorem splitOnDot_intercalate : ∀ ps : List JsStr, ps ≠ [] → (∀ p ∈ ps, dotCode ∉ p) →
    splitOnDot (intercalateDot ps) = ps := by
  intro ps
  induction ps with
  | nil => intro h; exact absurd rfl h
  | cons p ps ih =>
    intro _ hmem
    cases ps with
    | nil => exact splitOnDot_no_dot p (hmem p (by simp))
    | cons q qs =>
      simp only [intercalateDot]
      rw [splitOnDot_append p _ (hmem p (by simp))]
      rw [ih (by simp) (fun r hr => hmem r (by simp [hr]))]

theorem splitOnDot_joinPath (l : List Nat) (h : l ≠ []) :
    splitOnDot (joinPath l) = l.map natToChars := by
  apply splitOnDot_intercalate
  · simpa using h
  · intro p hp
    rcases List.mem_map.mp hp with ⟨n, _, rfl⟩
    exact dot_not_mem_natToChars n

theorem nodeIdSplit_joinPath (l : List Nat) (h : l ≠ []) :
    nodeIdSplit (joinPath l) = l.map fun (n : Nat) => some (n : Int) := by
  simp only [nodeIdSplit, splitOnDot_joinPath l h, List.map_map]
  exact List.map_congr_left fun n _ => parseIntDec_natToChars n

theorem seqPath_map_some (l : List Nat) :
    seqPath (l.map fun (n : Nat) => some (n : Int)) = some l := by
  induction l with
  | nil => rfl
  | cons i rest ih => simp [seqPath, ih]

/-! ## The node data model

`NodeProps` of the source, restricted to the fields the modelled functions
read: `nodeId`, `state`, `nodes`, `attr`, `lazyLoad`, `loading`.  The
display-only fields (`text`, icons, styling, `reference`) are never read by
the tree-model functions and are omitted.  `state.checked` is
`true | false | null` when present (`Option (Option Bool)`, inner `none` is
JS `null`); the other state fields are plain optional booleans.  `loading`
is `true | false | null | absent` (`Option (Option Bool)` again). -/

/-- The (partial) `state` record of a node; every field may be absent. -/
structure NState where
  checked : Option (Option Bool) := none
  expanded : Option Bool := none
  disabled : Option Bool := none
  selected : Option Bool := none
deriving DecidableEq

/-- A tree node (`NodeProps`).  `nodes = none` models an absent `nodes`
field, which is distinct from `some []` for lazy-load purposes. -/
inductive NodeP : Type where
  | mk (nodeId : JsStr) (state : NState) (nodes : Option (List NodeP))
       (attr : Option (List (JsStr × JsStr))) (lazyLoad : Bool)
       (loading : Option (Option Bool)) : NodeP

def NodeP.nodeId : NodeP → JsStr
  | .mk i _ _ _ _ _ => i

def NodeP.state : NodeP → NState
  | .mk _ s _ _ _ _ => s

def NodeP.nodes : NodeP → Option (List NodeP)
  | .mk _ _ ns _ _ _ => ns

def NodeP.attr : NodeP → Option (List (JsStr × JsStr))
  | .mk _ _ _ a _ _ => a

def NodeP.lazyLoad : NodeP → Bool
  | .mk _ _ _ _ lz _ => lz

def NodeP.loading : NodeP → Option (Option Bool)
  | .mk _ _ _ _ _ ld => ld

/-! ### Mutators (Tree.tsx:293-350)

Each returns a shallow copy of the node with one field replaced. -/

/-- `Tree.nodeChecked`: `{...node, state: {...node.state, checked: value}}`.
`value` may be `null` (partial). -/
def nodeChecked : NodeP → Option Bool → NodeP
  | .mk i s ns a lz ld, v => .mk i { s with checked := some v } ns a lz ld

/-- `Tree.nodeExpanded`. -/
def nodeExpanded : NodeP → Bool → NodeP
  | .mk i s ns a lz ld, v => .mk i { s with expanded := some v } ns a lz ld

/-- `Tree.nodeDisabled`. -/
def nodeDisabled : NodeP → Bool → NodeP
  | .mk i s ns a lz ld, v => .mk i { s with disabled := some v } ns a lz ld

/-- `Tree.nodeSelected`. -/
def nodeSelected : NodeP → Bool → NodeP
  | .mk i s ns a lz ld, v => .mk i { s with selected := some v } ns a lz ld

/-- `Tree.nodeChildren`: `{...node, nodes: nodes}`. -/
def nodeChildren : NodeP → List NodeP → NodeP
  | .mk i s _ a lz ld, ns => .mk i s (some ns) a lz ld

/-- `Tree.nodeLoading`: `{...node, loading: value}`; the assigned value is
`true`, `false` or `null`. -/
def nodeLoading : NodeP → Option Bool → NodeP
  | .mk i s ns a lz _, v => .mk i s ns a lz (some v)

/-! ### Locators (Tree.tsx:194-242) -/

/-- JS array indexing with a parsed segment: a `NaN` or negative index
reads a non-element property and yields `undefined` (`none`), as does an
out-of-bounds index. -/
def jsIndex (tree : List NodeP) (i : Option Int) : Option NodeP :=
  i.bind fun k => if 0 ≤ k then tree[k.toNat]? else none

/-- Walk of `Tree.nodeSelector` along an already split path: start at
`tree[path[0]]`, then repeatedly `node = node.nodes[path[i]]`.  A read
through `undefined` is a crash, modelled `none`. -/
def selectPathOpt : List NodeP → List (Option Int) → Option NodeP
  | _, [] => none
  | tree, [i] => jsIndex tree i
  | tree, i :: rest =>
    (jsIndex tree i).bind fun n => n.nodes.bind fun ns => selectPathOpt ns rest

/-- The same walk along a path of plain indices. -/
def selectPathNat : List NodeP → List Nat → Option NodeP
  | _, [] => none
  | tree, [i] => tree[i]?
  | tree, i :: rest =>
    (tree[i]?).bind fun n => n.nodes.bind fun ns => selectPathNat ns rest

/-- A path addresses an existing node of the tree: every index is in
bounds and every non-final step goes through a present `nodes` field. -/
def validPathB : List NodeP → List Nat → Bool
  | _, [] => false
  | tree, [i] => decide (i < tree.length)
  | tree, i :: rest =>
    match tree[i]? with
    | none => false
    | some n =>
      match n.nodes with
      | none => false
      | some ns => validPathB ns rest

/-- `Tree.nodeSelector` (Tree.tsx:194-203). -/
def nodeSelector (tree : List NodeP) (nodeId : JsStr) : Option NodeP :=
  selectPathOpt tree (nodeIdSplit nodeId)

/-- `Tree.parentNodeSelector` (Tree.tsx:215-224): the same walk stopping one
level short; for a single-segment id it returns the node itself. -/
def parentNodeSelector (tree : List NodeP) (nodeId : JsStr) : Option NodeP :=
  let path := nodeIdSplit nodeId
  selectPathOpt tree (if path.length = 1 then path else path.dropLast)

theorem jsIndex_natCast (tree : List NodeP) (i : Nat) :
    jsIndex tree (some (i : Int)) = tree[i]? := by
  simp [jsIndex]

theorem selectPathOpt_map_some : ∀ (p : List Nat) (tree : List NodeP),
    selectPathOpt tree (p.map fun (n : Nat) => some (n : Int)) = selectPathNat tree p := by
  intro p
  induction p with
  | nil => intro tree; rfl
  | cons i rest ih =>
    intro tree
    cases rest with
    | nil => simp [selectPathOpt, selectPathNat, jsIndex_natCast]
    | cons j rest2 =>
      simp only [List.map_cons, selectPathOpt, selectPathNat, jsIndex_natCast]
      cases tree[i]? with
      | none => rfl
      | some n =>
        simp only [Option.some_bind]
        cases n.nodes with
        | none => rfl
        | some ns => simpa using ih ns

/-! ### Tree initializer (Tree.tsx:105-135) -/

/-- The nodeId assigned to child `i` under `parentID`:
`parentID === '' ? i.toString() : parentID + '.' + i`. -/
def childId (parentID : JsStr) (i : Nat) : JsStr :=
  if parentID = [] then natToChars i else parentID ++ dotCode :: natToChars i

/-- State filling of `initTree`: each missing field is replaced by its
default (`defVal`, modelled from the spec: "fill `state` with defaults for
any missing field"); present values, including `checked = null`, are kept. -/
def fillState (s : NState) : NState :=
  { checked := some (s.checked.getD (some false)),
    expanded := some (s.expanded.getD false),
    disabled := some (s.disabled.getD false),
    selected := some (s.selected.getD false) }

/-- One loop iteration of `initTree` on the node at index `i`: assign the
nodeId, fill the state, and recurse into `nodes` when present using the
supplied recursion `f` for the child list. -/
def initOne (f : JsStr → List NodeP → List NodeP) (pid : JsStr) (i : Nat) : NodeP → NodeP
  | .mk _ st nodes a lz ld =>
    .mk (childId pid i) (fillState st)
      (match nodes with
       | none => none
       | some cs => some (f (childId pid i) cs))
      a lz ld

/-- The `for` loop of `initTree` over one sibling row, starting at index `i`. -/
def initRow (f : JsStr → List NodeP → List NodeP) (pid : JsStr) : Nat → List NodeP → List NodeP
  | _, [] => []
  | i, n :: ns => initOne f pid i n :: initRow f pid (i + 1) ns

/-- `Tree.initTree` with explicit recursion fuel (one unit per tree level;
with fuel `0` the input is returned unchanged, which never happens for
fuel larger than the tree depth). -/
def initListF : Nat → JsStr → List NodeP → List NodeP
  | 0, _, l => l
  | fuel + 1, pid, l => initRow (initListF fuel) pid 0 l

/-- `Tree.initTree tree parentID` (accessibility refs are display-only and
not modelled). -/
def initTree (fuel : Nat) (tree : List NodeP) (parentID : JsStr) : List NodeP :=
  initListF fuel parentID tree

/-- The nodeId of the node reached from a node with id `pid` along the
index path `p` (each step appends `.i`). -/
def idAppend : JsStr → List Nat → JsStr
  | pid, [] => pid
  | pid, i :: rest => idAppend (childId pid i) rest

/-! ### Positional-id consistency

`idsOkF fuel pid tree` states that every node of `tree` (viewed as the
child row of a node with id `pid`, `pid = []` for the root row) stores
exactly the nodeId the Initializer would assign to its position.  This is
the well-formedness under which the string-walking functions of the source
follow tree positions. -/

/-- One row of the id-consistency check. -/
def idsRow (f : JsStr → List NodeP → Bool) (pid : JsStr) : Nat → List NodeP → Bool
  | _, [] => true
  | i, n :: ns =>
    decide (n.nodeId = childId pid i) &&
    (match n.nodes with
     | none => true
     | some cs => f (childId pid i) cs) &&
    idsRow f pid (i + 1) ns

/-- Id-consistency of a whole tree, fueled per level. -/
def idsOkF : Nat → JsStr → List NodeP → Bool
  | 0, _, _ => false
  | fuel + 1, pid, l => idsRow (idsOkF fuel) pid 0 l

theorem joinPath_cons (i : Nat) (rest : List Nat) (h : rest ≠ []) :
    joinPath (i :: rest) = natToChars i ++ dotCode :: joinPath rest := by
  simp only [joinPath, List.map_cons]
  cases rest with
  | nil => exact absurd rfl h
  | cons j r => simp [intercalateDot]

theorem idAppend_ne_nil (pid : JsStr) (i : Nat) : childId pid i ≠ [] := by
  simp only [childId]
  by_cases h : pid = []
  · simp [h, natToChars_ne_nil]
  · simp [h]

theorem idAppend_of_ne_nil : ∀ (p : List Nat) (pid : JsStr), p ≠ [] → pid ≠ [] →
    idAppend pid p = pid ++ dotCode :: joinPath p := by
  intro p
  induction p with
  | nil => intro pid h; exact absurd rfl h
  | cons i rest ih =>
    intro pid _ hpid
    cases Decidable.em (rest = []) with
    | inl hr =>
      subst hr
      simp [idAppend, childId, hpid, joinPath, intercalateDot]
    | inr hr =>
      simp only [idAppend]
      rw [ih (childId pid i) hr (idAppend_ne_nil pid i)]
      simp only [childId, hpid, if_false]
      rw [joinPath_cons i rest hr]
      simp

theorem idAppend_nil (p : List Nat) (h : p ≠ []) : idAppend [] p = joinPath p := by
  cases p with
  | nil => exact absurd rfl h
  | cons i rest =>
    simp only [idAppend]
    cases Decidable.em (rest = []) with
    | inl hr => subst hr; simp [idAppend, childId, joinPath, intercalateDot]
    | inr hr =>
      rw [idAppend_of_ne_nil rest (childId [] i) hr (idAppend_ne_nil [] i)]
      rw [joinPath_cons i rest hr]
      simp [childId]

theorem validPathB_cons_iff (tree : List NodeP) (i j : Nat) (rest2 : List Nat) :
    validPathB tree (i :: j :: rest2) = true ↔
    ∃ n ns, tree[i]? = some n ∧ n.nodes = some ns ∧ validPathB ns (j :: rest2) = true := by
  simp only [validPathB]
  cases h1 : tree[i]? with
  | none => simp
  | some n =>
    cases h2 : n.nodes with
    | none => simp [h2]
    | some ns => simp [h2]

theorem initRow_get (f : JsStr → List NodeP → List NodeP) (pid : JsStr) :
    ∀ (l : List NodeP) (i0 j : Nat),
    (initRow f pid i0 l)[j]? = (l[j]?).map (initOne f pid (i0 + j)) := by
  intro l
  induction l with
  | nil => intro i0 j; simp [initRow]
  | cons n ns ih =>
    intro i0 j
    cases j with
    | zero => simp [initRow]
    | succ j =>
      simp only [initRow, List.getElem?_cons_succ]
      rw [ih (i0 + 1) j]
      have h : i0 + 1 + j = i0 + (j + 1) := by omega
      rw [h]

theorem initRow_length (f : JsStr → List NodeP → List NodeP) (pid : JsStr) :
    ∀ (l : List NodeP) (i0 : Nat), (initRow f pid i0 l).length = l.length := by
  intro l
  induction l with
  | nil => intro i0; rfl
  | cons n ns ih => intro i0; simp [initRow, ih]

theorem initOne_nodeId (f : JsStr → List NodeP → List NodeP) (pid : JsStr) (i : Nat)
    (n : NodeP) : (initOne f pid i n).nodeId = childId pid i := by
  cases n; rfl

theorem initOne_nodes (f : JsStr → List NodeP → List NodeP) (pid : JsStr) (i : Nat)
    (n : NodeP) :
    (initOne f pid i n).nodes = (n.nodes).map (f (childId pid i)) := by
  cases n with
  | mk _ st nodes a lz ld => cases nodes <;> rfl

theorem validPathB_initListF : ∀ (p : List Nat) (fuel : Nat) (pid : JsStr) (l : List NodeP),
    validPathB (initListF fuel pid l) p = validPathB l p := by
  intro p
  induction p with
  | nil => intro fuel pid l; cases fuel <;> rfl
  | cons i rest ih =>
    intro fuel pid l
    cases fuel with
    | zero => rfl
    | succ fuel =>
      cases rest with
      | nil =>
        simp [validPathB, initListF, initRow_length]
      | cons j rest2 =>
        simp only [initListF]
        rw [Bool.eq_iff_iff, validPathB_cons_iff, validPathB_cons_iff]
        rw [initRow_get]
        cases hl : l[i]? with
        | none => simp
        | some n =>
          cases hn : n.nodes with
          | none => simp [initOne_nodes, hn]
          | some cs =>
            simp [initOne_nodes, hn]
            exact ih fuel (childId pid i) cs

theorem init_select : ∀ (p : List Nat) (fuel : Nat) (pid : JsStr) (l : List NodeP),
    validPathB l p = true → p.length ≤ fuel →
    ∃ n, selectPathNat (initListF fuel pid l) p = some n ∧ n.nodeId = idAppend pid p := by
  intro p
  induction p with
  | nil => intro fuel pid l hv; simp [validPathB] at hv
  | cons i rest ih =>
    intro fuel pid l hv hf
    cases fuel with
    | zero => simp at hf
    | succ fuel =>
      cases rest with
      | nil =>
        simp only [validPathB, decide_eq_true_eq] at hv
        cases hget : l[i]? with
        | none =>
          rw [List.getElem?_eq_none_iff] at hget
          omega
        | some x =>
          refine ⟨initOne (initListF fuel) pid i x, ?_, ?_⟩
          · show (initRow (initListF fuel) pid 0 l)[i]? = _
            rw [initRow_get, hget]
            simp
          · rw [initOne_nodeId]
            rfl
      | cons j rest2 =>
        rw [validPathB_cons_iff] at hv
        rcases hv with ⟨n, cs, hl, hn, hv⟩
        have hrec := ih fuel (childId pid (0 + i)) cs hv (by simp at hf ⊢; omega)
        rcases hrec with ⟨m, hm1, hm2⟩
        refine ⟨m, ?_, ?_⟩
        · show ((initRow (initListF fuel) pid 0 l)[i]?).bind _ = _
          rw [initRow_get, hl]
          simp only [Option.map_some', Option.some_bind]
          rw [initOne_nodes, hn]
          simpa using hm1
        · rw [hm2]
          simp [idAppend]

theorem idsRow_get (f : JsStr → List NodeP → Bool) (pid : JsStr) :
    ∀ (l : List NodeP) (i0 j : Nat) (n : NodeP),
    idsRow f pid i0 l = true → l[j]? = some n →
    n.nodeId = childId pid (i0 + j) ∧
    (∀ cs, n.nodes = some cs → f (childId pid (i0 + j)) cs = true) := by
  intro l
  induction l with
  | nil => intro i0 j n _ hg; simp at hg
  | cons m ms ih =>
    intro i0 j n hrow hg
    simp only [idsRow, Bool.and_eq_true, decide_eq_true_eq] at hrow
    cases j with
    | zero =>
      simp only [List.getElem?_cons_zero, Option.some_inj] at hg
      subst hg
      refine ⟨by simpa using hrow.1.1, ?_⟩
      intro cs hcs
      have := hrow.1.2
      rw [hcs] at this
      simpa using this
    | succ j =>
      simp only [List.getElem?_cons_succ] at hg
      have := ih (i0 + 1) j n hrow.2 hg
      constructor
      · rw [this.1]; congr 1; omega
      · intro cs hcs
        have h2 := this.2 cs hcs
        have : i0 + 1 + j = i0 + (j + 1) := by omega
        rwa [this] at h2

theorem idsOk_select : ∀ (p : List Nat) (fuel : Nat) (pid : JsStr) (l : List NodeP),
    idsOkF fuel pid l = true → validPathB l p = true →
    ∃ n, selectPathNat l p = some n ∧ n.nodeId = idAppend pid p := by
  intro p
  induction p with
  | nil => intro fuel pid l _ hv; simp [validPathB] at hv
  | cons i rest ih =>
    intro fuel pid l hok hv
    cases fuel with
    | zero => simp [idsOkF] at hok
    | succ fuel =>
      simp only [idsOkF] at hok
      cases rest with
      | nil =>
        simp only [validPathB, decide_eq_true_eq] at hv
        cases hget : l[i]? with
        | none =>
          rw [List.getElem?_eq_none_iff] at hget
          omega
        | some x =>
          have hrg := idsRow_get (idsOkF fuel) pid l 0 i x hok hget
          exact ⟨x, hget, by simpa using hrg.1⟩
      | cons j rest2 =>
        rw [validPathB_cons_iff] at hv
        rcases hv with ⟨n, cs, hl, hn, hv⟩
        have hrg := idsRow_get (idsOkF fuel) pid l 0 i n hok hl
        have hok2 : idsOkF fuel (childId pid (0 + i)) cs = true := hrg.2 cs hn
        have hrec := ih fuel (childId pid (0 + i)) cs hok2 hv
        rcases hrec with ⟨m, hm1, hm2⟩
        refine ⟨m, ?_, ?_⟩
        · simp only [selectPathNat, hl, Option.some_bind, hn]
          exact hm1
        · rw [hm2]; simp [idAppend]

/-! ### Upward checkbox recompute (`parentCheckboxChange`, Tree.tsx:625-666)

`parentCheckboxChange` is triggered by `nodeCheckboxChange` exactly when
the change is user-initiated (`directlyChanged`) and `hierarchicalCheck`
is enabled (Tree.tsx:679-681).  It walks up from the changed node via the
stored nodeIds, recomputes each ancestor's `checked` from its direct
children and emits one `onDataChange(parent.nodeId, 'state.checked', st)`
notification whenever the recomputed value differs from the stored one;
it then recurses to the grandparent unconditionally. -/

/-- A child's `state.checked` as seen by the scan loop: a missing field
(JS `undefined`) is strictly equal to neither `null` nor `true`, so it
behaves like `false` in the scan. -/
def checkedScanVal : Option (Option Bool) → Option Bool
  | none => some false
  | some v => v

/-- The checked values of a child row as scanned. -/
def childVals (ns : List NodeP) : List (Option Bool) :=
  ns.map fun c => checkedScanVal c.state.checked

/-- The scan loop over the children (Tree.tsx:637-650): break on the
first `null` child (`none` result), otherwise count the `true` children
(`some counter`). -/
def scanChildren : List (Option Bool) → Option Nat
  | [] => some 0
  | c :: cs =>
    match c with
    | none => none
    | some true => (scanChildren cs).map (· + 1)
    | some false => scanChildren cs

/-- The recomputed parent `checked` value (scan loop plus the post-loop
adjustment, Tree.tsx:636-659): `null` on a `null` child, else `true` when
the counter equals the child count, `null` when it is positive, `false`
otherwise. -/
def computeParentState (cs : List (Option Bool)) : Option Bool :=
  match scanChildren cs with
  | none => none
  | some k => if k = cs.length then some true else if 0 < k then none else some false

/-- The upward rule in the spec's words (§4.5): the ancestor becomes
`null` if any child is `null`; else `true` if all children are `true`;
else `null` if some but not all are `true`; else `false`. -/
def specUpwardRule (cs : List (Option Bool)) : Option Bool :=
  if none ∈ cs then none
  else if ∀ c ∈ cs, c = some true then some true
  else if ∃ c ∈ cs, c = some true then none
  else some false

/-- The notification `parentCheckboxChange` emits at the ancestor with
index path `q`, if any: the recomputed value when it differs from the
stored one; `none` when the values agree (or the walk would crash
there). -/
def notifAt (tree : List NodeP) (q : List Nat) : Option (JsStr × Option Bool) :=
  match selectPathNat tree q with
  | none => none
  | some parent =>
    match parent.nodes with
    | none => none
    | some ns =>
      let st := computeParentState (childVals ns)
      if parent.state.checked ≠ some st then some (joinPath q, st) else none

/-- The proper ancestors of a path, innermost first (helper on the
reversed path). -/
def ancestorPathsRev : List Nat → List (List Nat)
  | [] => []
  | [_] => []
  | _ :: rest => rest.reverse :: ancestorPathsRev rest

/-- The proper non-empty prefixes of an index path, longest (immediate
parent) first. -/
def ancestorPaths (p : List Nat) : List (List Nat) :=
  ancestorPathsRev p.reverse

/-- `parentCheckboxChange` as the list of emitted
`(parentId, 'state.checked', value)` notifications, fueled one unit per
ancestor level.  The walk follows the source exactly: split the nodeId,
drop the last segment, rejoin, select the parent by the resulting string,
scan its children, notify on difference, recurse with the parent's stored
nodeId.  `none` models a crash of the walk (selector failure or a parent
without `nodes`), impossible on id-consistent trees. -/
def parentCheckboxNotifsF (tree : List NodeP) : Nat → JsStr → Option (List (JsStr × Option Bool))
  | 0, _ => none
  | fuel + 1, nodeId =>
    let idArr := splitOnDot nodeId
    if idArr.length = 1 then some []
    else
      let parentID := intercalateDot idArr.dropLast
      match nodeSelector tree parentID with
      | none => none
      | some parent =>
        match parent.nodes with
        | none => none
        | some ns =>
          let st := computeParentState (childVals ns)
          match parentCheckboxNotifsF tree fuel parent.nodeId with
          | none => none
          | some tail =>
            some ((if parent.state.checked ≠ some st then [(parent.nodeId, st)] else []) ++ tail)

theorem scanChildren_eq (cs : List (Option Bool)) :
    scanChildren cs =
      if (none : Option Bool) ∈ cs then none
      else some (cs.countP (· == some true)) := by
  induction cs with
  | nil => rfl
  | cons c cs ih =>
    cases c with
    | none => simp [scanChildren]
    | some b =>
      by_cases h : (none : Option Bool) ∈ cs
      · cases b <;> simp [scanChildren, ih, h]
      · cases b <;> simp [scanChildren, ih, h, List.countP_cons]

theorem computeParentState_eq_spec (cs : List (Option Bool)) :
    computeParentState cs = specUpwardRule cs := by
  by_cases h : (none : Option Bool) ∈ cs
  · simp [computeParentState, scanChildren_eq, specUpwardRule, h]
  · simp only [computeParentState, scanChildren_eq, specUpwardRule, h, if_false]
    by_cases hall : ∀ c ∈ cs, c = some true
    · have hcount : cs.countP (· == some true) = cs.length :=
        List.countP_eq_length.mpr (fun a ha => by simp [hall a ha])
      rw [if_pos hall]
      simp [hcount]
    · have hne : cs.countP (· == some true) ≠ cs.length := by
        intro hc
        exact hall fun a ha => by simpa using List.countP_eq_length.mp hc a ha
      by_cases hany : ∃ c ∈ cs, c = some true
      · have hpos : 0 < cs.countP (· == some true) := by
          rcases hany with ⟨a, ha, rfl⟩
          exact List.countP_pos_iff.mpr ⟨_, ha, by simp⟩
        simp [hall, hany, hne, hpos]
      · have hzero : cs.countP (· == some true) = 0 := by
          rw [List.countP_eq_zero]
          intro a ha hpa
          exact hany ⟨a, ha, by simpa using hpa⟩
        rcases cs with _ | ⟨c0, cs'⟩
        · exact absurd (by simp) hall
        · have h1 : ¬ (c0 = some true ∧ ∀ a ∈ cs', a = some true) := by
            rintro ⟨hc0, _⟩
            exact hany ⟨c0, by simp, hc0⟩
          have h2 : ¬ (some true = c0 ∨ some true ∈ cs') := by
            rintro (hc | hc)
            · exact hany ⟨c0, by simp, hc.symm⟩
            · exact hany ⟨some true, by simp [hc], rfl⟩
          simp [hzero, h1, h2]

theorem ancestorPaths_concat (q : List Nat) (i : Nat) :
    ancestorPaths (q ++ [i]) = if q = [] then [] else q :: ancestorPaths q := by
  simp only [ancestorPaths, List.reverse_append, List.reverse_cons, List.reverse_nil,
    List.nil_append, List.singleton_append]
  cases hq : q.reverse with
  | nil =>
    have : q = [] := by simpa using congrArg List.reverse hq
    simp [this, ancestorPathsRev]
  | cons a r =>
    have hqne : q ≠ [] := by
      intro h
      subst h
      simp at hq
    simp only [ancestorPathsRev, hqne, if_false]
    rw [← hq]
    simp

theorem validPathB_cons_of_ne (tree : List NodeP) (j : Nat) (q : List Nat) (h : q ≠ []) :
    validPathB tree (j :: q) = true ↔
    ∃ n ns, tree[j]? = some n ∧ n.nodes = some ns ∧ validPathB ns q = true := by
  rcases List.exists_cons_of_ne_nil h with ⟨a, r, rfl⟩
  exact validPathB_cons_iff tree j a r

theorem selectPathNat_cons_of_ne (tree : List NodeP) (j : Nat) (q : List Nat) (h : q ≠ []) :
    selectPathNat tree (j :: q) =
      (tree[j]?).bind fun n => n.nodes.bind fun ns => selectPathNat ns q := by
  rcases List.exists_cons_of_ne_nil h with ⟨a, r, rfl⟩
  rfl

theorem valid_concat : ∀ (q : List Nat) (i : Nat) (tree : List NodeP), q ≠ [] →
    validPathB tree (q ++ [i]) = true →
    validPathB tree q = true ∧
    ∃ parent ns, selectPathNat tree q = some parent ∧ parent.nodes = some ns ∧
      i < ns.length := by
  intro q
  induction q with
  | nil => intro i tree h; exact absurd rfl h
  | cons j q' ih =>
    intro i tree _ hv
    rw [List.cons_append] at hv
    by_cases hq' : q' = []
    · subst hq'
      rcases (validPathB_cons_iff tree j i []).mp (by simpa using hv) with
        ⟨n, ns, hn, hns, hvi⟩
      have hjlt : j < tree.length := by
        by_contra hc
        rw [List.getElem?_eq_none (by omega)] at hn
        cases hn
      refine ⟨by simp [validPathB, hjlt], n, ns, ?_, hns, ?_⟩
      · simpa [selectPathNat] using hn
      · simpa [validPathB] using hvi
    · rcases (validPathB_cons_of_ne tree j (q' ++ [i]) (by simp)).mp hv with
        ⟨n, ns, hn, hns, hv2⟩
      rcases ih i ns hq' hv2 with ⟨hvq', parent, pns, hsel, hpns, hlt⟩
      refine ⟨(validPathB_cons_of_ne tree j q' hq').mpr ⟨n, ns, hn, hns, hvq'⟩,
        parent, pns, ?_, hpns, hlt⟩
      rw [selectPathNat_cons_of_ne tree j q' hq', hn]
      simp only [Option.some_bind]
      rw [hns]
      simpa using hsel

theorem parentNotifs_char (tree : List NodeP) (fi : Nat) (hok : idsOkF fi [] tree = true) :
    ∀ (p : List Nat) (fuel : Nat), validPathB tree p = true → p.length ≤ fuel →
    parentCheckboxNotifsF tree fuel (joinPath p) =
      some ((ancestorPaths p).filterMap (notifAt tree)) := by
  intro p
  induction p using List.reverseRecOn with
  | nil => intro fuel hv _; simp [validPathB] at hv
  | append_singleton q i ih =>
    intro fuel hv hf
    have hne : q ++ [i] ≠ [] := by simp
    cases fuel with
    | zero =>
      exfalso
      simp at hf
    | succ fuel =>
      have hsplit : splitOnDot (joinPath (q ++ [i])) = (q ++ [i]).map natToChars :=
        splitOnDot_joinPath _ hne
      by_cases hq : q = []
      · subst hq
        simp only [List.nil_append] at hsplit ⊢
        rw [show ancestorPaths [i] = [] from rfl]
        simp only [parentCheckboxNotifsF, hsplit]
        simp
      · obtain ⟨hvq, parent, ns, hsel, hns, hilt⟩ := valid_concat q i tree hq hv
        obtain ⟨parent', hsel', hid⟩ := idsOk_select q fi [] tree hok hvq
        rw [hsel] at hsel'
        obtain rfl : parent = parent' := by
          exact Option.some_inj.mp hsel'
        have hpid : parent.nodeId = joinPath q := by
          rw [hid, idAppend_nil q hq]
        have hlen1 : ¬ ((q ++ [i]).map natToChars).length = 1 := by
          simp [hq]
        have hdrop : ((q ++ [i]).map natToChars).dropLast = q.map natToChars := by
          rw [List.map_append]
          simp
        have hselector : nodeSelector tree (joinPath q) = some parent := by
          show selectPathOpt tree (nodeIdSplit (joinPath q)) = some parent
          rw [nodeIdSplit_joinPath q hq, selectPathOpt_map_some]
          exact hsel
        have hrec : parentCheckboxNotifsF tree fuel (joinPath q) =
            some ((ancestorPaths q).filterMap (notifAt tree)) := by
          apply ih fuel hvq
          have hlen2 : q.length + 1 ≤ fuel + 1 := by simpa using hf
          omega
        have hanc : ancestorPaths (q ++ [i]) = q :: ancestorPaths q := by
          rw [ancestorPaths_concat, if_neg hq]
        simp only [parentCheckboxNotifsF, hsplit, hlen1, if_false, hdrop]
        rw [show intercalateDot (q.map natToChars) = joinPath q from rfl]
        rw [hselector]
        simp only [hns]
        rw [hpid, hrec]
        rw [hanc, List.filterMap_cons]
        have hnotif : notifAt tree q =
            (if parent.state.checked ≠ some (computeParentState (childVals ns)) then
              some (joinPath q, computeParentState (childVals ns)) else none) := by
          simp only [notifAt, hsel, hns]
        by_cases hd : parent.state.checked = some (computeParentState (childVals ns))
        · rw [hnotif]
          simp [hd]
        · rw [hnotif]
          simp [hd]

theorem ancestorPaths_length : ∀ p : List Nat, (ancestorPaths p).length = p.length - 1 := by
  intro p
  induction p using List.reverseRecOn with
  | nil => rfl
  | append_singleton q i ih =>
    rw [ancestorPaths_concat]
    by_cases hq : q = []
    · simp [hq]
    · have : q.length ≠ 0 := fun hc => hq (List.length_eq_zero.mp hc)
      simp only [hq, if_false, List.length_cons, ih, List.length_append,
        List.length_singleton, List.length_nil]
      omega

theorem mem_ancestorPaths_take : ∀ (p : List Nat) (k : Nat), 1 ≤ k → k < p.length →
    p.take k ∈ ancestorPaths p := by
  intro p
  induction p using List.reverseRecOn with
  | nil => intro k h1 h2; simp at h2
  | append_singleton q i ih =>
    intro k h1 h2
    have hq : q ≠ [] := by
      intro h
      subst h
      simp at h2
      omega
    rw [ancestorPaths_concat, if_neg hq]
    have hk : k ≤ q.length := by
      have : (q ++ [i]).length = q.length + 1 := by simp
      omega
    rcases Nat.lt_or_ge k q.length with hlt | hge
    · rw [List.take_append_of_le_length hk]
      exact List.mem_cons_of_mem _ (ih k h1 hlt)
    · have hkq : k = q.length := by omega
      have htake : (q ++ [i]).take k = q := by
        rw [hkq, List.take_append_of_le_length (le_refl _), List.take_length]
      rw [htake]
      exact List.mem_cons_self _ _

/-! ## Claim C1: the upward recompute rule -/

/-- C1: on a user-initiated checkbox change in hierarchical-check mode,
each ancestor's recomputed `checked` value follows the spec's rule
(`null` if any child is `null`; `true` if all children are `true`; `null`
if some but not all are `true`; `false` otherwise), with the stated
example children values; the ancestor walk emits a change notification
for an ancestor exactly when the recomputed value differs from its
current one (`notifAt`), and the full notification list of
`parentCheckboxChange` is the `filterMap` of `notifAt` over all proper
ancestor prefixes of the changed node's path. -/
theorem c1_upward_recompute :
    (∀ cs : List (Option Bool), computeParentState cs = specUpwardRule cs) ∧
    computeParentState [some true, some false, some true] = none ∧
    computeParentState [some true, some true, some true] = some true ∧
    computeParentState [some false, some false] = some false ∧
    (∀ (tree : List NodeP) (q : List Nat) (parent : NodeP) (ns : List NodeP),
      selectPathNat tree q = some parent → parent.nodes = some ns →
      notifAt tree q =
        (if parent.state.checked ≠ some (computeParentState (childVals ns)) then
          some (joinPath q, computeParentState (childVals ns)) else none)) ∧
    (∀ (tree : List NodeP) (fi : Nat) (p : List Nat) (fuel : Nat),
      idsOkF fi [] tree = true → validPathB tree p = true → p.length ≤ fuel →
      parentCheckboxNotifsF tree fuel (joinPath p) =
        some ((ancestorPaths p).filterMap (notifAt tree))) := by
  refine ⟨computeParentState_eq_spec, by decide, by decide, by decide, ?_, ?_⟩
  · intro tree q parent ns h1 h2
    simp only [notifAt, h1, h2]
  · intro tree fi p fuel hok hv hf
    exact parentNotifs_char tree fi hok p fuel hv hf

/-- A two-level id-consistent tree for the C1 witness: root `"0"`
(checked `false`) with single child `"0.0"` (checked `true`). -/
def c1tree : List NodeP :=
  [NodeP.mk [48]
    ⟨some (some false), some true, some false, some false⟩
    (some [NodeP.mk [48, 46, 48]
      ⟨some (some true), some false, some false, some false⟩ none none false none])
    none false none]

/-- Witness for C1 at `c1tree` with the changed node at path `[0, 0]`. -/
theorem c1_upward_recompute_witness :
    computeParentState [some true, some false, some true] = none ∧
    idsOkF 2 [] c1tree = true ∧
    validPathB c1tree [0, 0] = true ∧
    [0, 0].length ≤ 2 ∧
    parentCheckboxNotifsF c1tree 2 (joinPath [0, 0]) =
      some ((ancestorPaths [0, 0]).filterMap (notifAt c1tree)) :=
  ⟨c1_upward_recompute.2.1, by decide, by decide, by decide,
    c1_upward_recompute.2.2.2.2.2 c1tree 2 [0, 0] 2 (by decide) (by decide) (by decide)⟩

/-! ## Claim C10: no early stop in the upward recompute

The claim states the recompute proceeds to an ancestor's own parent only
if that ancestor's value actually changed, and that no notification fires
above the first unchanged ancestor.  The source (Tree.tsx:665) recurses
with `return this.parentCheckboxChange(state, parentNode)` outside the
`if` that guards the notification, i.e. unconditionally. -/

/-- A three-level id-consistent tree refuting the early stop: the changed
node is `"0.0.0"`; its parent `"0.0"` recomputes to `false`, equal to its
stored value (unchanged); yet the walk continues and the root `"0"`
(stored `true`, recomputed `false`) receives a notification above the
unchanged ancestor. -/
def c10tree : List NodeP :=
  [NodeP.mk [48]
    ⟨some (some true), some true, some false, some false⟩
    (some [NodeP.mk [48, 46, 48]
      ⟨some (some false), some true, some false, some false⟩
      (some [NodeP.mk [48, 46, 48, 46, 48]
        ⟨some (some false), some false, some false, some false⟩ none none false none])
      none false none])
    none false none]

/-- Counterexample to C10: at `c10tree` with the change at `"0.0.0"`, the
immediate ancestor `"0.0"` is unchanged (`notifAt` is `none` there), yet
the emitted notification list contains an entry for the ancestor `"0"`
above it. -/
theorem c10_early_stop_cex :
    notifAt c10tree [0, 0] = none ∧
    parentCheckboxNotifsF c10tree 3 (joinPath [0, 0, 0]) =
      some [(joinPath [0], some false)] := by
  constructor
  · decide
  · decide

/-- C10 corrected: the upward recompute never stops early — it walks
every proper non-empty ancestor prefix of the changed node's path up to
the top level, and emits a notification for each visited ancestor exactly
when that ancestor's recomputed value differs from its stored one; such a
notification can fire above an unchanged ancestor. -/
theorem c10_no_early_stop :
    (∀ (tree : List NodeP) (fi : Nat) (p : List Nat) (fuel : Nat),
      idsOkF fi [] tree = true → validPathB tree p = true → p.length ≤ fuel →
      parentCheckboxNotifsF tree fuel (joinPath p) =
        some ((ancestorPaths p).filterMap (notifAt tree))) ∧
    (∀ p : List Nat, (ancestorPaths p).length = p.length - 1) ∧
    (∀ (p : List Nat) (k : Nat), 1 ≤ k → k < p.length → p.take k ∈ ancestorPaths p) :=
  ⟨fun tree fi p fuel hok hv hf => parentNotifs_char tree fi hok p fuel hv hf,
   ancestorPaths_length, mem_ancestorPaths_take⟩

/-- Witness for C10 at `c10tree` with the change at `"0.0.0"`. -/
theorem c10_no_early_stop_witness :
    idsOkF 3 [] c10tree = true ∧
    validPathB c10tree [0, 0, 0] = true ∧
    [0, 0, 0].length ≤ 3 ∧
    parentCheckboxNotifsF c10tree 3 (joinPath [0, 0, 0]) =
      some ((ancestorPaths [0, 0, 0]).filterMap (notifAt c10tree)) ∧
    (1 ≤ 1 ∧ 1 < [0, 0, 0].length ∧ [0, 0, 0].take 1 ∈ ancestorPaths [0, 0, 0]) :=
  ⟨by decide, by decide, by decide,
   c10_no_early_stop.1 c10tree 3 [0, 0, 0] 3 (by decide) (by decide) (by decide),
   by decide, by decide, c10_no_early_stop.2.2 [0, 0, 0] 1 (by decide) (by decide)⟩

/-! ### Copy-on-write update (`nodeUpdater`, Tree.tsx:261-284)

The source copies the top-level array (`let newTree = [...tree]`).  For a
single-segment id it writes `newTree[path[0]] = node` into the fresh
array only.  For a deeper id it walks `tempNode` through the *original
node objects* (the fresh array holds the same references) down to the
target's parent and assigns `tempNode.nodes[last] = node` — an in-place
mutation of an object shared with the input tree.  The embedding makes
the heap effect observable by giving both the returned tree value and the
input tree's value after the call. -/

/-- Replace a node's `nodes` field (the observable result of mutating an
element of its `nodes` array). -/
def setNodes : NodeP → Option (List NodeP) → NodeP
  | .mk i s _ a lz ld, v => .mk i s v a lz ld

/-- The tree value with the node at the given index path replaced.
`none` when the walk fails (out-of-bounds index or absent `nodes`), which
the source does not guard against. -/
def replaceAtPath : List NodeP → List Nat → NodeP → Option (List NodeP)
  | _, [], _ => none
  | tree, [i], node => if i < tree.length then some (tree.set i node) else none
  | tree, i :: rest, node =>
    (tree[i]?).bind fun n =>
      (n.nodes).bind fun ns =>
        (replaceAtPath ns rest node).map fun ns2 => tree.set i (setNodes n (some ns2))

/-- `Tree.nodeUpdater tree node` — the returned tree value. -/
def nodeUpdater (tree : List NodeP) (node : NodeP) : Option (List NodeP) :=
  match seqPath (nodeIdSplit node.nodeId) with
  | none => none
  | some path => replaceAtPath tree path node

/-- The observable value of the *input* tree after the `nodeUpdater`
call: unchanged for a single-segment id (only the fresh copy is
written); for a deeper id the in-place write to the shared parent node
makes the input tree show the same replacement. -/
def nodeUpdaterOldAfter (tree : List NodeP) (node : NodeP) : Option (List NodeP) :=
  match seqPath (nodeIdSplit node.nodeId) with
  | none => none
  | some path =>
    if path.length = 1 then some tree else replaceAtPath tree path node

theorem setNodes_nodes (n : NodeP) (v : Option (List NodeP)) : (setNodes n v).nodes = v := by
  cases n; rfl

theorem replaceAtPath_select : ∀ (path : List Nat) (tree : List NodeP) (node : NodeP)
    (tree2 : List NodeP), replaceAtPath tree path node = some tree2 →
    selectPathNat tree2 path = some node := by
  intro path
  induction path with
  | nil => intro tree node tree2 h; simp [replaceAtPath] at h
  | cons i rest ih =>
    intro tree node tree2 h
    cases hr : rest with
    | nil =>
      subst hr
      simp only [replaceAtPath] at h
      by_cases hi : i < tree.length
      · rw [if_pos hi] at h
        rcases Option.some_inj.mp h with rfl
        show (tree.set i node)[i]? = some node
        exact List.getElem?_set_eq_of_lt node hi
      · rw [if_neg hi] at h
        cases h
    | cons j rest2 =>
      subst hr
      simp only [replaceAtPath] at h
      cases hl : tree[i]? with
      | none => rw [hl] at h; cases h
      | some n =>
        rw [hl] at h
        simp only [Option.some_bind] at h
        cases hn : n.nodes with
        | none => rw [hn] at h; cases h
        | some ns =>
          rw [hn] at h
          simp only [Option.some_bind] at h
          cases hrep : replaceAtPath ns (j :: rest2) node with
          | none => rw [hrep] at h; cases h
          | some ns2 =>
            rw [hrep] at h
            simp only [Option.map_some'] at h
            rcases Option.some_inj.mp h with rfl
            have hi : i < tree.length := by
              by_contra hc
              rw [List.getElem?_eq_none (by omega)] at hl
              cases hl
            rw [selectPathNat_cons_of_ne _ _ _ (by simp)]
            rw [List.getElem?_set_eq_of_lt _ hi]
            simp only [Option.some_bind, setNodes_nodes, Option.some_bind]
            exact ih ns node ns2 hrep

theorem replaceAtPath_offspine : ∀ (path : List Nat) (tree : List NodeP) (node : NodeP)
    (tree2 : List NodeP) (q : List Nat), replaceAtPath tree path node = some tree2 →
    ¬ q <+: path → ¬ path <+: q → selectPathNat tree2 q = selectPathNat tree q := by
  intro path
  induction path with
  | nil => intro tree node tree2 q h; simp [replaceAtPath] at h
  | cons i rest ih =>
    intro tree node tree2 q h hp1 hp2
    cases hr : rest with
    | nil =>
      subst hr
      simp only [replaceAtPath] at h
      by_cases hi : i < tree.length
      · rw [if_pos hi] at h
        rcases Option.some_inj.mp h with rfl
        cases q with
        | nil => rfl
        | cons j q' =>
          by_cases hij : j = i
          · subst hij
            cases q' with
            | nil => exact absurd List.prefix_rfl hp1
            | cons a r =>
              exact absurd (List.cons_prefix_cons.mpr ⟨rfl, List.nil_prefix⟩) hp2
          · cases q' with
            | nil =>
              show (tree.set i node)[j]? = tree[j]?
              exact List.getElem?_set_ne (fun hc => hij hc.symm)
            | cons a r =>
              rw [selectPathNat_cons_of_ne _ _ _ (by simp),
                  selectPathNat_cons_of_ne _ _ _ (by simp)]
              rw [List.getElem?_set_ne (fun hc => hij hc.symm)]
      · rw [if_neg hi] at h
        cases h
    | cons k rest2 =>
      subst hr
      simp only [replaceAtPath] at h
      cases hl : tree[i]? with
      | none => rw [hl] at h; cases h
      | some n =>
        rw [hl] at h
        simp only [Option.some_bind] at h
        cases hn : n.nodes with
        | none => rw [hn] at h; cases h
        | some ns =>
          rw [hn] at h
          simp only [Option.some_bind] at h
          cases hrep : replaceAtPath ns (k :: rest2) node with
          | none => rw [hrep] at h; cases h
          | some ns2 =>
            rw [hrep] at h
            simp only [Option.map_some'] at h
            rcases Option.some_inj.mp h with rfl
            have hi : i < tree.length := by
              by_contra hc
              rw [List.getElem?_eq_none (by omega)] at hl
              cases hl
            cases q with
            | nil => rfl
            | cons j q' =>
              by_cases hij : j = i
              · subst hij
                cases q' with
                | nil => exact absurd (List.cons_prefix_cons.mpr ⟨rfl, List.nil_prefix⟩) hp1
                | cons a r =>
                  rw [selectPathNat_cons_of_ne _ _ _ (by simp),
                      selectPathNat_cons_of_ne _ _ _ (by simp)]
                  rw [List.getElem?_set_eq_of_lt _ hi, hl]
                  simp only [Option.some_bind, setNodes_nodes, hn]
                  exact ih ns node ns2 (a :: r) hrep
                    (fun hc => hp1 (List.cons_prefix_cons.mpr ⟨rfl, hc⟩))
                    (fun hc => hp2 (List.cons_prefix_cons.mpr ⟨rfl, hc⟩))
              · cases q' with
                | nil =>
                  show (tree.set i _)[j]? = tree[j]?
                  exact List.getElem?_set_ne (fun hc => hij hc.symm)
                | cons a r =>
                  rw [selectPathNat_cons_of_ne _ _ _ (by simp),
                      selectPathNat_cons_of_ne _ _ _ (by simp)]
                  rw [List.getElem?_set_ne (fun hc => hij hc.symm)]

/-! ## Claim C3: copy-on-write update -/

/-- C3 (counterexample machinery): a root `"0"` whose single child
`"0.0"` is replaced by `c3node` (same id, `checked` flipped to
`true`). -/
def c3tree : List NodeP :=
  [NodeP.mk [48]
    ⟨some (some false), some true, some false, some false⟩
    (some [NodeP.mk [48, 46, 48]
      ⟨some (some false), some false, some false, some false⟩ none none false none])
    none false none]

/-- The updated node carried into `nodeUpdater` for the C3 example. -/
def c3node : NodeP :=
  NodeP.mk [48, 46, 48]
    ⟨some (some true), some false, some false, some false⟩ none none false none

/-- The tree value with `c3node` in place of the child. -/
def c3tree2 : List NodeP :=
  [NodeP.mk [48]
    ⟨some (some false), some true, some false, some false⟩
    (some [c3node]) none false none]

/-- Extracts the `checked` value of the first child of the first root of
a tree value (observation function for the counterexample). -/
def probeChecked (t : Option (List NodeP)) : Option (Option (Option Bool)) :=
  (((t.bind fun l => l[0]?).bind NodeP.nodes).bind fun l => l[0]?).map
    fun n => n.state.checked

/-- Counterexample to C3: updating the nested node `"0.0"` mutates the
input tree — after the call the input tree shows the replaced child, so
the input tree's value is no longer the original (`nodeUpdater` only
copies the top-level array; the spine below it is mutated in place, not
rebuilt). -/
theorem c3_copy_on_write_cex : nodeUpdaterOldAfter c3tree c3node ≠ some c3tree := by
  intro h
  have hp := congrArg probeChecked h
  rw [show probeChecked (nodeUpdaterOldAfter c3tree c3node) = some (some (some true)) from rfl,
      show probeChecked (some c3tree) = some (some (some false)) from rfl] at hp
  cases Option.some_inj.mp hp

/-- C3 corrected: `nodeUpdater` returns the tree with the node replaced
at its id's path and leaves every subtree off that path equal (shared);
but only the top-level array is freshly copied: for a single-segment id
the input tree is unmutated, while for a deeper id the target's parent —
an object shared with the input tree — is mutated in place, so the input
tree observes the same replacement instead of being preserved. -/
theorem c3_copy_on_write_amended (tree : List NodeP) (node : NodeP) (path : List Nat)
    (tree2 : List NodeP) (hsplit : seqPath (nodeIdSplit node.nodeId) = some path)
    (hrep : replaceAtPath tree path node = some tree2) :
    nodeUpdater tree node = some tree2 ∧
    selectPathNat tree2 path = some node ∧
    (∀ q : List Nat, ¬ q <+: path → ¬ path <+: q →
      selectPathNat tree2 q = selectPathNat tree q) ∧
    (path.length = 1 → nodeUpdaterOldAfter tree node = some tree) ∧
    (2 ≤ path.length → nodeUpdaterOldAfter tree node = some tree2) := by
  refine ⟨?_, replaceAtPath_select path tree node tree2 hrep, ?_, ?_, ?_⟩
  · simp only [nodeUpdater, hsplit]
    exact hrep
  · intro q h1 h2
    exact replaceAtPath_offspine path tree node tree2 q hrep h1 h2
  · intro hlen
    simp only [nodeUpdaterOldAfter, hsplit, hlen, if_pos]
  · intro hlen
    have : ¬ path.length = 1 := by omega
    simp only [nodeUpdaterOldAfter, hsplit, this, if_false]
    exact hrep

/-- Witness for C3 amended at `c3tree` with the nested update `c3node`
(path `[0, 0]`). -/
theorem c3_copy_on_write_amended_witness :
    seqPath (nodeIdSplit c3node.nodeId) = some [0, 0] ∧
    replaceAtPath c3tree [0, 0] c3node = some c3tree2 ∧
    (nodeUpdater c3tree c3node = some c3tree2 ∧
     selectPathNat c3tree2 [0, 0] = some c3node ∧
     (∀ q : List Nat, ¬ q <+: [0, 0] → ¬ [0, 0] <+: q →
       selectPathNat c3tree2 q = selectPathNat c3tree q) ∧
     ([0, 0].length = 1 → nodeUpdaterOldAfter c3tree c3node = some c3tree) ∧
     (2 ≤ [0, 0].length → nodeUpdaterOldAfter c3tree c3node = some c3tree2)) :=
  ⟨rfl, rfl, c3_copy_on_write_amended c3tree c3node [0, 0] c3tree2 rfl rfl⟩

/-! ### Navigation sequencer (`previousNode` / `nextNode`, Tree.tsx:386-482) -/

/-- `Tree.getLastVisible` (Tree.tsx:393-399), fueled: a non-expanded node
(JS falsy `state.expanded`) is returned; otherwise descend into the last
child.  An expanded node with absent or empty `nodes` crashes (`none`). -/
def getLastVisibleF : Nat → NodeP → Option NodeP
  | 0, _ => none
  | fuel + 1, n =>
    if n.state.expanded ≠ some true then some n
    else
      match n.nodes with
      | none => none
      | some ns =>
        match ns.getLast? with
        | none => none
        | some last => getLastVisibleF fuel last

/-- `Tree.previousNode` (Tree.tsx:412-437).  A nodeId with a `NaN`
segment is not modelled (`none`; the code would compare `NaN > 0` and
join `NaN` into the id). -/
def previousNodeF (tree : List NodeP) (fuel : Nat) (nodeId : JsStr) : Option JsStr :=
  match seqPath (nodeIdSplit nodeId) with
  | none => none
  | some path =>
    match path with
    | [] => none
    | [i] =>
      if 0 < i then
        (nodeSelector tree (natToChars (i - 1))).bind fun n =>
          (getLastVisibleF fuel n).map NodeP.nodeId
      else some nodeId
    | _ =>
      let last := path.getLastD 0
      if 0 < last then
        (nodeSelector tree (joinPath (path.dropLast ++ [last - 1]))).bind fun n =>
          (getLastVisibleF fuel n).map NodeP.nodeId
      else some (joinPath path.dropLast)

/-- `Tree.nextNode` (Tree.tsx:451-482), fueled on the recursive
sibling-only calls.  On the non-recursive entry, an expanded node with a
present `nodes` field (JS arrays are truthy even when empty) descends to
its first child; otherwise the next sibling is taken, or the walk
recurses on the parent's stored nodeId. -/
def nextNodeF (tree : List NodeP) : Nat → JsStr → Bool → Option JsStr
  | 0, _, _ => none
  | fuel + 1, nodeId, recursive =>
    let siblingStep : Option JsStr :=
      match seqPath (nodeIdSplit nodeId) with
      | none => none
      | some path =>
        match path with
        | [] => none
        | [i] => if i < tree.length - 1 then some (natToChars (i + 1)) else some nodeId
        | _ =>
          match parentNodeSelector tree nodeId with
          | none => none
          | some parentNode =>
            match parentNode.nodes with
            | none => none
            | some ns =>
              let last := path.getLastD 0
              if last < ns.length - 1 then some (joinPath (path.dropLast ++ [last + 1]))
              else nextNodeF tree fuel parentNode.nodeId true
    if recursive then siblingStep
    else
      match nodeSelector tree nodeId with
      | none => none
      | some node =>
        if node.state.expanded = some true ∧ node.nodes.isSome then
          match node.nodes with
          | some (c :: _) => some c.nodeId
          | some [] => none
          | none => none
        else siblingStep

/-! ### Search (`nodeSearch`, Tree.tsx:159-183) -/

/-- `node.attr[attrName]` lookup. -/
def attrLookup : Option (List (JsStr × JsStr)) → JsStr → Option JsStr
  | none, _ => none
  | some m, key => (m.find? fun kv => kv.1 == key).map Prod.snd

/-- The match test of `nodeSearch` (Tree.tsx:178): `rootNode.attr` must
exist, `rootNode.attr[attrName]` must be truthy (an empty string is
falsy), and strict equality with the search string must hold. -/
def attrMatches (n : NodeP) (attrName searchString : JsStr) : Bool :=
  match attrLookup n.attr attrName with
  | none => false
  | some v => !v.isEmpty && v == searchString

/-- `Tree.nodeSearch` (Tree.tsx:159-183), fueled.  With `nodeID = none`
(JS `null`) the top-level loop *concatenates* the per-root results; in
the subtree branch the child loop *assigns* `findInID = nodeSearch(...)`
each iteration (Tree.tsx:174), so only the last child's result survives,
and the root's own id is appended when its attribute matches. -/
def nodeSearchF (tree : List NodeP) : Nat → Option JsStr → JsStr → JsStr → Option (List JsStr)
  | 0, _, _, _ => none
  | fuel + 1, none, attrName, s =>
    tree.foldl
      (fun acc n => acc.bind fun l =>
        (nodeSearchF tree fuel (some n.nodeId) attrName s).map fun r => l ++ r)
      (some [])
  | fuel + 1, some nodeID, attrName, s =>
    match nodeSelector tree nodeID with
    | none => none
    | some root =>
      let afterChildren : Option (List JsStr) :=
        match root.nodes with
        | none => some []
        | some ns =>
          ns.foldl
            (fun acc c => acc.bind fun _ => nodeSearchF tree fuel (some c.nodeId) attrName s)
            (some [])
      afterChildren.bind fun found =>
        if attrMatches root attrName s then some (found ++ [root.nodeId]) else some found

/-! ### Lazy-load orchestration (`lazyLoad` / `changeExpand`,
Tree.tsx:719-725 and 790-812)

Notifications are modelled as `(nodeId, value)` pairs and applied to the
node with the mutators the demo host maps them to
(`'nodes' -> nodeChildren`, `'loading' -> nodeLoading`, App.tsx:15-22). -/

/-- The payload of an `onDataChange` notification relevant to lazy
loading. -/
inductive DataVal : Type where
  | nodesV (ns : List NodeP)
  | loadingV (v : Option Bool)

/-- The guard of `changeExpand` (Tree.tsx:720): a fetch is issued iff
`node.lazyLoad && !node.nodes`; the `loading` flag is not consulted. -/
def expandTriggersFetch (n : NodeP) : Bool := n.lazyLoad && n.nodes.isNone

/-- The notifications `lazyLoad` emits for one node, by fetch
environment: `none` = no fetch function configured (sets `nodes = []`
and `loading = null`); `some none` = the fetch rejects (sets
`loading = true`, then `loading = null` only); `some (some d)` = the
fetch fulfills with `d` (sets `loading = true`, then `nodes = d`,
`loading = false`). -/
def lazyLoadNotifs (nodeId : JsStr) : Option (Option (List NodeP)) → List (JsStr × DataVal)
  | none => [(nodeId, .nodesV []), (nodeId, .loadingV none)]
  | some none => [(nodeId, .loadingV (some true)), (nodeId, .loadingV none)]
  | some (some d) =>
    [(nodeId, .loadingV (some true)), (nodeId, .nodesV d), (nodeId, .loadingV (some false))]

/-- Application of one notification to the node it addresses. -/
def applyNotif (n : NodeP) (notif : JsStr × DataVal) : NodeP :=
  if notif.1 = n.nodeId then
    match notif.2 with
    | .nodesV ns => nodeChildren n ns
    | .loadingV v => nodeLoading n v
  else n

/-- The node's observable state after a lazy-load round in the given
fetch environment. -/
def nodeAfterLazyLoad (n : NodeP) (fetch : Option (Option (List NodeP))) : NodeP :=
  (lazyLoadNotifs n.nodeId fetch).foldl applyNotif n

/-! ## Claim C6: locator identity -/

/-- C6: for every tree produced by the Initializer and every nodeId that
corresponds to an existing path in that tree (the assigned ids are exactly
`joinPath p` for the valid index paths `p`), following the split index path
with `nodeSelector` reaches exactly the node whose assigned id is that
nodeId: `locate(tree, n).nodeId === n`. -/
theorem c6_locator_identity (raw : List NodeP) (p : List Nat) (fuel : Nat)
    (hv : validPathB (initTree fuel raw []) p = true) (hf : p.length ≤ fuel) :
    ∃ n, nodeSelector (initTree fuel raw []) (joinPath p) = some n ∧
      n.nodeId = joinPath p := by
  have hvraw : validPathB raw p = true := by
    rw [show initTree fuel raw [] = initListF fuel [] raw from rfl,
        validPathB_initListF] at hv
    exact hv
  have hne : p ≠ [] := by
    intro h
    subst h
    simp [validPathB] at hv
  obtain ⟨n, h1, h2⟩ := init_select p fuel [] raw hvraw hf
  refine ⟨n, ?_, ?_⟩
  · show selectPathOpt _ (nodeIdSplit (joinPath p)) = some n
    rw [nodeIdSplit_joinPath p hne, selectPathOpt_map_some]
    exact h1
  · rw [h2, idAppend_nil p hne]

/-- A two-level example tree for the C6 witness (ids before init are
empty; states partially missing). -/
def c6tree : List NodeP :=
  [NodeP.mk [] {} (some [NodeP.mk [] {} none none false none]) none false none]

/-- Witness for C6 at the concrete tree `c6tree` and path `[0, 0]`. -/
theorem c6_locator_identity_witness :
    validPathB (initTree 2 c6tree []) [0, 0] = true ∧
    [0, 0].length ≤ 2 ∧
    ∃ n, nodeSelector (initTree 2 c6tree []) (joinPath [0, 0]) = some n ∧
      n.nodeId = joinPath [0, 0] :=
  ⟨by decide, by decide, c6_locator_identity c6tree [0, 0] 2 (by decide) (by decide)⟩

/-! ## Claim C7: addressing round-trip -/

/-- C7: for every non-empty sequence of non-negative integers,
`split(join(indices)) === indices`; in the model `nodeIdSplit` returns
JS numbers (integers or `NaN`), so the parsed entries come back as
`some`-wrapped integers. -/
theorem c7_split_join_roundtrip (l : List Nat) (h : l ≠ []) :
    nodeIdSplit (joinPath l) = l.map fun (n : Nat) => some (n : Int) :=
  nodeIdSplit_joinPath l h

/-- Witness for C7 at the concrete index sequence `[0, 12, 3]`. -/
theorem c7_split_join_roundtrip_witness :
    ([0, 12, 3] : List Nat) ≠ [] ∧
    nodeIdSplit (joinPath [0, 12, 3]) =
      ([0, 12, 3] : List Nat).map fun (n : Nat) => some (n : Int) :=
  ⟨by decide, c7_split_join_roundtrip [0, 12, 3] (by decide)⟩

/-! ## Claim C8: malformed ids

The claim states that `split` fails fast with a `MalformedId` error on a
non-numeric segment.  The code (`nodeIdSplit`, Tree.tsx:143-147) never
throws: `parseInt` returns `NaN` for a segment that carries no leading
decimal digit after its whitespace-and-sign prefix, and a number for the
others (`parseInt('-1', 10) = -1`), so the function always returns an
array. -/

/-- The failing tree for C4: a single expanded root `"0"` with two
collapsed children; the visible order is `0, 0.0, 0.1`, so `"0.1"` is the
absolute last visible node. -/
def c4tree : List NodeP :=
  [NodeP.mk [48]
    ⟨some (some false), some true, some false, some false⟩
    (some [NodeP.mk [48, 46, 48]
      ⟨some (some false), some false, some false, some false⟩ none none false none,
      NodeP.mk [48, 46, 49]
      ⟨some (some false), some false, some false, some false⟩ none none false none])
    none false none]

/-- C4 (code bug evidence): on `c4tree`, `previous` at the absolute first
visible node `"0"` returns `"0"` as claimed, the absolute last visible
node is the nested `"0.1"`, yet `next("0.1")` evaluates to `"0"` — the
top-level ancestor — instead of `"0.1"`. -/
theorem c4_boundary_eval :
    previousNodeF c4tree 3 (joinPath [0]) = some (joinPath [0]) ∧
    ((c4tree[0]?).bind (getLastVisibleF 3)).map NodeP.nodeId = some (joinPath [0, 1]) ∧
    nextNodeF c4tree 3 (joinPath [0, 1]) false = some (joinPath [0]) ∧
    joinPath [0] ≠ joinPath [0, 1] := by
  refine ⟨rfl, rfl, rfl, by decide⟩

/-! ## Claim C5: search completeness

The claim: `nodeSearch` collects the ids of *all* nodes in the scanned
subtree whose `attr[attrName]` equals the value.  The subtree branch of
the code assigns `findInID = this.nodeSearch(...)` inside the child loop
(Tree.tsx:174) instead of concatenating (as the top-level branch does at
Tree.tsx:164), so all but the last child's results are discarded. -/

/-- The failing tree for C5: root `"0"` with children `"0.0"` (whose
`attr` maps `"k"` (107) to `"v"` (118)) and `"0.1"` (no attributes). -/
def c5tree : List NodeP :=
  [NodeP.mk [48]
    ⟨some (some false), some true, some false, some false⟩
    (some [NodeP.mk [48, 46, 48]
      ⟨some (some false), some false, some false, some false⟩ none
      (some [([107], [118])]) false none,
      NodeP.mk [48, 46, 49]
      ⟨some (some false), some false, some false, some false⟩ none none false none])
    none false none]

/-- C5 (code bug evidence): searching the whole `c5tree` for
`attr["k"] === "v"` returns the empty list even though the node `"0.0"`
is in the tree and matches — its id is omitted from the result. -/
theorem c5_search_incomplete :
    nodeSearchF c5tree 3 none [107] [118] = some [] ∧
    (∃ n, selectPathNat c5tree [0, 0] = some n ∧ attrMatches n [107] [118] = true) :=
  ⟨rfl, ⟨_, rfl, rfl⟩⟩

/-! ## Claim C2: the lazy-load error path

The claim: on fetch rejection *or* absence of a fetch function, the node
ends with `nodes = []` and `loading = null`, and a second expand issues
no new fetch.  The code does this only for an *absent* fetch function
(Tree.tsx:794-798); on *rejection* it sets `loading = null` alone
(Tree.tsx:808-811), leaving `nodes` undefined, so `changeExpand`'s guard
`lazyLoad && !nodes` fires again and a second expand re-issues the
fetch. -/

/-- The C2 example node: `lazyLoad` with no fetched `nodes`. -/
def c2node : NodeP :=
  NodeP.mk [48]
    ⟨some (some false), some false, some false, some false⟩ none none true none

/-- Counterexample to C2: after a *rejected* fetch, `nodes` is still
undefined (not `[]`), and a subsequent expand does trigger a new fetch. -/
theorem c2_lazy_error_cex :
    (nodeAfterLazyLoad c2node (some none)).nodes = none ∧
    (nodeAfterLazyLoad c2node (some none)).loading = some none ∧
    expandTriggersFetch (nodeAfterLazyLoad c2node (some none)) = true ∧
    (nodeAfterLazyLoad c2node (some none)).nodes ≠ some [] := by
  refine ⟨rfl, rfl, rfl, ?_⟩
  intro h
  rw [show (nodeAfterLazyLoad c2node (some none)).nodes = none from rfl] at h
  cases h

/-- C2 corrected: for a `lazyLoad` node with no `nodes`, an *absent*
fetch function yields `nodes = []`, `loading = null` and no re-fetch on a
later expand; a *rejected* fetch yields only `loading = null`, leaves
`nodes` undefined, and a later expand does issue a new fetch. -/
theorem c2_lazy_error_amended (n : NodeP) (h1 : n.lazyLoad = true) (h2 : n.nodes = none) :
    (nodeAfterLazyLoad n none).nodes = some [] ∧
    (nodeAfterLazyLoad n none).loading = some none ∧
    expandTriggersFetch (nodeAfterLazyLoad n none) = false ∧
    (nodeAfterLazyLoad n (some none)).loading = some none ∧
    (nodeAfterLazyLoad n (some none)).nodes = none ∧
    expandTriggersFetch (nodeAfterLazyLoad n (some none)) = true := by
  cases n with
  | mk id st nodes a lz ld =>
    simp only [NodeP.nodes] at h2
    simp only [NodeP.lazyLoad] at h1
    subst h2
    subst h1
    refine ⟨?_, ?_, ?_, ?_, ?_, ?_⟩ <;>
      simp [nodeAfterLazyLoad, lazyLoadNotifs, applyNotif, nodeChildren, nodeLoading,
        NodeP.nodeId, NodeP.nodes, NodeP.loading, NodeP.lazyLoad, expandTriggersFetch]

/-- Witness for C2 corrected at the concrete node `c2node`. -/
theorem c2_lazy_error_amended_witness :
    c2node.lazyLoad = true ∧ c2node.nodes = none ∧
    ((nodeAfterLazyLoad c2node none).nodes = some [] ∧
     (nodeAfterLazyLoad c2node none).loading = some none ∧
     expandTriggersFetch (nodeAfterLazyLoad c2node none) = false ∧
     (nodeAfterLazyLoad c2node (some none)).loading = some none ∧
     (nodeAfterLazyLoad c2node (some none)).nodes = none ∧
     expandTriggersFetch (nodeAfterLazyLoad c2node (some none)) = true) :=
  ⟨rfl, rfl, c2_lazy_error_amended c2node rfl rfl⟩

/-! ## Claim C9: single in-flight fetch

The claim: while `loading = true`, further expand requests on the node
are no-ops and never issue a second fetch.  `changeExpand`'s guard
(Tree.tsx:720) tests only `node.lazyLoad && !node.nodes`; the `loading`
flag is not consulted, so while a fetch is in flight (`loading = true`,
`nodes` still undefined) a second expand issues a second fetch. -/

/-- The C9 example node: a fetch is in flight (`loading = true`) and
`nodes` is still undefined. -/
def c9node : NodeP :=
  NodeP.mk [48]
    ⟨some (some false), some true, some false, some false⟩ none none true
    (some (some true))

/-- Counterexample to C9: on a node with `loading = true` and `nodes`
undefined, a further expand request does trigger a new fetch. -/
theorem c9_single_flight_cex :
    c9node.loading = some (some true) ∧
    c9node.lazyLoad = true ∧
    c9node.nodes = none ∧
    expandTriggersFetch c9node = true :=
  ⟨rfl, rfl, rfl, rfl⟩

/-- C9 corrected: the expand-time guard depends only on `lazyLoad` and
the absence of `nodes` — a `lazyLoad` node without `nodes` re-fetches on
every expand regardless of `loading`, and only a node with `nodes`
defined is protected; the `loading = true` notification is emitted
first, before any fetch-outcome notification. -/
theorem c9_single_flight_amended :
    (∀ n : NodeP, n.lazyLoad = true → n.nodes = none → expandTriggersFetch n = true) ∧
    (∀ (n : NodeP) (ns : List NodeP), n.nodes = some ns → expandTriggersFetch n = false) ∧
    (∀ (nodeId : JsStr) (outcome : Option (List NodeP)),
      (lazyLoadNotifs nodeId (some outcome)).head? =
        some (nodeId, DataVal.loadingV (some true))) := by
  refine ⟨?_, ?_, ?_⟩
  · intro n h1 h2
    simp [expandTriggersFetch, h1, h2]
  · intro n ns h
    simp [expandTriggersFetch, h]
  · intro nodeId outcome
    cases outcome <;> rfl

/-- Witness for C9 corrected at the concrete node `c9node`. -/
theorem c9_single_flight_amended_witness :
    c9node.lazyLoad = true ∧ c9node.nodes = none ∧
    expandTriggersFetch c9node = true ∧
    (lazyLoadNotifs [48] (some none)).head? = some ([48], DataVal.loadingV (some true)) :=
  ⟨rfl, rfl, c9_single_flight_amended.1 c9node rfl rfl,
   c9_single_flight_amended.2.2 [48] none⟩

end WoodenTree
